import Mathlib

/-!
# Verification of the Petri net analysis core (`src/petrinet.py`)

A shallow embedding of the `Petrinet` class: markings are lists of
integers, the mutable object state is threaded explicitly, and the
recursive depth-first search of `analysis` is modelled with an explicit
fuel parameter (`none` meaning "fuel exhausted"; we prove that the fuel
chosen by `Petrinet.analysis` is always sufficient for well-formed nets,
so the model is total on the inputs the claims are about).
-/

set_option maxHeartbeats 1000000

namespace Petrinets

/-- A marking: one token count per place (Python `tuple`/`list` of `int`). -/
abbrev Marking := List Int

/-- A transition: its `pre` and `post` vectors. -/
abbrev Trans := List Int × List Int

/-- The reachability graph `self.g`: per visited marking, the set of
`(resulting marking, transition index)` edges, modelled as an association
list in insertion order. -/
abbrev Graph := List (Marking × List (Marking × Nat))

/-- Model of `Petrinet._valid_mark`: all components non-negative and at most 10000. -/
def valid_mark (mark : Marking) : Bool :=
  !(mark.any fun p => decide (p < 0) || decide (p > 10000))

/-- Loop body of `Petrinet._a_greater_b`, carrying the `one_greater` flag. -/
def a_greater_b_loop (one_greater : Bool) : List (Int × Int) → Bool
  | [] => one_greater
  | (ai, bi) :: rest =>
    if bi > ai then false
    else a_greater_b_loop (one_greater || decide (ai > bi)) rest

/-- Model of `Petrinet._a_greater_b`: `a` dominates `b` (componentwise ≥ over the
zipped prefix, with at least one strictly greater component). -/
def a_greater_b (a b : Marking) : Bool :=
  a_greater_b_loop false (a.zip b)

/-- The scan of `Petrinet._infinite`: first marking on the path (oldest
first) that the current marking dominates. -/
def findDominated (mark : Marking) : List Marking → Option Marking
  | [] => none
  | prev :: rest =>
    if a_greater_b mark prev then some prev else findDominated mark rest

/-- Keys of the reachability graph. -/
def gKeys (g : Graph) : List Marking := g.map Prod.fst

/-- Model of `self.g[mark].add((tmp, i))`: append an edge to `mark`'s adjacency set. -/
def gAddEdge (g : Graph) (mark tmp : Marking) (i : Nat) : Graph :=
  g.map fun e => if e.1 = mark then (e.1, e.2 ++ [(tmp, i)]) else e

/-- Total number of edges recorded in the graph. -/
def totalEdges (g : Graph) : Nat := (g.map fun e => e.2.length).sum

/-- The mutable state touched by `analysis`/`dfs`: the local `visit` set and
`path` list plus the object fields `g`, `marks`, `edges`, `m_null`, `m_last`. -/
structure DfsSt where
  visit : List Marking
  path : List Marking
  g : Graph
  marks : Nat
  edges : Nat
  m_null : Option Marking
  m_last : Option Marking
deriving DecidableEq

/-- The transition loop inside `dfs` (`for i, t in enumerate(self.trans)`),
parameterised by the recursive call `dfsRec`.  For each transition, the
candidate `mark - pre` is formed; when it is valid the result
`candidate + post` is recorded as an edge and recursed into; a `False`
result from the recursion aborts the loop immediately. -/
def dfsLoop (dfsRec : DfsSt → Marking → Option (DfsSt × Bool)) (mark : Marking) :
    Nat → List Trans → DfsSt → Option (DfsSt × Bool)
  | _, [], s => some (s, true)
  | i, t :: rest, s =>
    if valid_mark (List.zipWith (fun p1 p2 => p1 - p2) mark t.1) then
      match dfsRec
          { s with
            g := gAddEdge s.g mark
              (List.zipWith (fun p1 p2 => p1 + p2)
                (List.zipWith (fun p1 p2 => p1 - p2) mark t.1) t.2) i,
            edges := s.edges + 1 }
          (List.zipWith (fun p1 p2 => p1 + p2)
            (List.zipWith (fun p1 p2 => p1 - p2) mark t.1) t.2) with
      | none => none
      | some (s2, false) => some (s2, false)
      | some (s2, true) => dfsLoop dfsRec mark (i + 1) rest s2
    else dfsLoop dfsRec mark (i + 1) rest s

/-- The inner `dfs` of `Petrinet.analysis`, with fuel bounding the recursion
depth.  `some (s, b)` is the final state together with the Python return
value; `none` means the fuel ran out (never happens for the fuel chosen by
`analysis` on a well-formed net, as proved below). -/
def dfs (trans : List Trans) : Nat → DfsSt → Marking → Option (DfsSt × Bool)
  | 0 => fun _ _ => none
  | fuel + 1 => fun s mark =>
    if mark ∈ s.visit then some (s, true)
    else
      match findDominated mark s.path with
      | some prev =>
        some ({ s with visit := mark :: s.visit,
                       m_null := some prev, m_last := some mark }, false)
      | none =>
        match dfsLoop (dfs trans fuel) mark 0 trans
            { s with visit := mark :: s.visit,
                     path := s.path ++ [mark],
                     g := s.g ++ [(mark, [])],
                     marks := s.marks + 1 } with
        | none => none
        | some (s3, false) => some (s3, false)
        | some (s3, true) => some ({ s3 with path := s3.path.dropLast }, true)

/-- The `self.ids` dictionary built by `update_net`:
`{places + i : trans[i]}`, modelled as an association list built by the
same enumeration. -/
def mkIdsFrom (k : Int) : List Trans → List (Int × Trans)
  | [] => []
  | t :: rest => (k, t) :: mkIdsFrom (k + 1) rest

/-- Dictionary lookup in `self.ids`. -/
def lookupIds : List (Int × Trans) → Int → Option Trans
  | [], _ => none
  | (k, v) :: rest, t_id => if k = t_id then some v else lookupIds rest t_id

/-- The `Petrinet` object.  Python initialises every field to `None`; the
model uses empty/`none` defaults, and every claim concerns nets that went
through `update_net`, which overwrites all fields. -/
structure Petrinet where
  trans : List Trans
  mark : Marking
  initial_mark : Marking
  places : Nat
  g : Graph
  bounded : Option Bool
  m_null : Option Marking
  m_last : Option Marking
  ids : List (Int × Trans)
  marks : Nat
  edges : Nat
deriving DecidableEq

/-- The freshly `__init__`-ed object (all fields at their empty defaults). -/
def Petrinet.init : Petrinet :=
  { trans := [], mark := [], initial_mark := [], places := 0, g := [],
    bounded := none, m_null := none, m_last := none, ids := [],
    marks := 0, edges := 0 }

/-- Model of `Petrinet.update_net`: replace the whole net: topology, live marking,
initial-marking snapshot, and reset all analysis state; rebuild `ids`. -/
def Petrinet.update_net (_pn : Petrinet) (m : Marking) (t : List Trans) : Petrinet :=
  { trans := t, mark := m, initial_mark := m, places := m.length, g := [],
    bounded := none, m_null := none, m_last := none,
    ids := mkIdsFrom (m.length : Int) t, marks := 0, edges := 0 }

/-- Model of `Petrinet.change_mark`: adjust one place's token count and, on success,
resync the initial-marking snapshot to the new live marking. -/
def Petrinet.change_mark (pn : Petrinet) (amount : Int) (place : Int) :
    Petrinet × Bool :=
  if 0 ≤ place ∧ place < (pn.places : Int) ∧
      0 ≤ pn.mark.getD place.toNat 0 + amount then
    ({ pn with
        mark := pn.mark.set place.toNat (pn.mark.getD place.toNat 0 + amount),
        initial_mark :=
          pn.mark.set place.toNat (pn.mark.getD place.toNat 0 + amount) },
      true)
  else (pn, false)

/-- Model of `Petrinet.set_mark`: overwrite the live marking componentwise
(`for i in range(len(self.mark))`). -/
def Petrinet.set_mark (pn : Petrinet) (new_mark : Marking) : Petrinet :=
  { pn with mark := new_mark.take pn.mark.length }

/-- Model of `Petrinet.fire_trans`: fire the transition with dictionary id `t_id` if
its candidate marking `mark - pre` is valid. -/
def Petrinet.fire_trans (pn : Petrinet) (t_id : Int) : Petrinet × Bool :=
  match lookupIds pn.ids t_id with
  | none => (pn, false)
  | some (t_pre, t_post) =>
    if valid_mark (List.zipWith (fun p1 p2 => p1 - p2) pn.mark t_pre) then
      ({ pn with
          mark := List.zipWith (fun p1 p2 => p1 + p2)
            (List.zipWith (fun p1 p2 => p1 - p2) pn.mark t_pre) t_post },
        true)
    else (pn, false)

/-- Largest `post` component appearing in any transition (at least 0). -/
def postMax (trans : List Trans) : Int :=
  trans.foldr (fun t acc => t.2.foldr max acc) 0

/-- Smallest `post` component appearing in any transition (at most 0). -/
def postMin (trans : List Trans) : Int :=
  trans.foldr (fun t acc => t.2.foldr min acc) 0

/-- Fuel that always suffices for the DFS on a well-formed net: two more
than the number of integer vectors of the marking's length whose
components lie in `[postMin, 10000 + postMax]` (every marking the DFS can
recurse into lies in that box). -/
def fuelBound (pn : Petrinet) : Nat :=
  ((10000 + postMax pn.trans) - postMin pn.trans + 1).toNat
      ^ pn.initial_mark.length + 2

/-- Model of `Petrinet.analysis`: reset the analysis state, restore the live marking
from the initial-marking snapshot, run the DFS from it and record the
verdict.  `none` only on fuel exhaustion, which is proved impossible for
well-formed nets. -/
def Petrinet.analysis (pn : Petrinet) : Option Petrinet :=
  match dfs pn.trans (fuelBound pn)
      { visit := [], path := [], g := [], marks := 0, edges := 0,
        m_null := none, m_last := none } pn.initial_mark with
  | none => none
  | some (s, b) =>
    some { pn with
            mark := pn.initial_mark, g := s.g, bounded := some b,
            m_null := s.m_null, m_last := s.m_last,
            marks := s.marks, edges := s.edges }

/-! ## Monotonicity of the DFS state -/

/-- The DFS only ever grows the visited set and the key set of the graph. -/
def StExtends (s s' : DfsSt) : Prop :=
  s.visit ⊆ s'.visit ∧ gKeys s.g ⊆ gKeys s'.g

/-! ## The recorded verdict: `False` returns carry a domination witness -/

/-- What a `dfs` return value says about `m_null`/`m_last`: a `False`
result records a pair where the later marking dominates the earlier one;
a `True` result leaves both fields as they were. -/
def OutcomeOk (s s' : DfsSt) (b : Bool) : Prop :=
  (b = false → ∃ a c, s'.m_null = some a ∧ s'.m_last = some c ∧
    a_greater_b c a = true) ∧
  (b = true → s'.m_null = s.m_null ∧ s'.m_last = s.m_last)

/-! ## Structural invariant of the DFS state: counters match the graph,
and every graph key is the root or of the form `candidate + post` with a
valid candidate -/

/-- The shape of every marking the DFS ever expands: the starting marking,
or `candidate + post(t)` for some transition `t` where the candidate
(`m - pre(t)` for the parent `m`) passed `_valid_mark` — note the validity
check constrains the candidate, not the stored marking itself. -/
def GoodKey (root : Marking) (trans : List Trans) (m : Marking) : Prop :=
  m = root ∨ ∃ t ∈ trans, ∃ c : Marking, valid_mark c = true ∧
    m = List.zipWith (fun p1 p2 => p1 + p2) c t.2

/-- Invariant carried by the DFS state: the visited list and graph keys are
duplicate-free, every key is visited, the node counter equals the number of
graph entries, the edge counter equals the number of recorded edges, and
every key has the `GoodKey` shape. -/
def InvG (root : Marking) (trans : List Trans) (s : DfsSt) : Prop :=
  s.visit.Nodup ∧ (gKeys s.g).Nodup ∧ (∀ k ∈ gKeys s.g, k ∈ s.visit) ∧
  s.marks = s.g.length ∧ s.edges = totalEdges s.g ∧
  (∀ k ∈ gKeys s.g, GoodKey root trans k)

/-! ## Termination: the DFS only ever visits markings in a finite box -/

/-- All integers in `[lo, hi]`. -/
def intRange (lo hi : Int) : List Int :=
  (List.range (hi + 1 - lo).toNat).map fun (k : Nat) => lo + (k : Int)

/-- All integer vectors of length `n` with components in `[lo, hi]`. -/
def vecs (lo hi : Int) : Nat → List Marking
  | 0 => [[]]
  | n + 1 => (intRange lo hi).flatMap fun x => (vecs lo hi n).map fun v => x :: v

/-- The finite set of markings the DFS can ever be called on: the root, and
every vector of the root's length whose components lie in
`[postMin, 10000 + postMax]`. -/
def searchSpace (trans : List Trans) (root : Marking) : Finset Marking :=
  (root :: vecs (postMin trans) (10000 + postMax trans) root.length).toFinset

/-! ## Concrete nets used by the claims -/

/-- Scenario B of the spec: token passing between two places. -/
def scenarioB : Petrinet :=
  Petrinet.init.update_net [1, 0] [([1, 0], [0, 1]), ([0, 1], [1, 0])]

/-- The `Petrinet` object as it stands after `scenarioB.analysis`. -/
def scenarioBResult : Petrinet :=
  { trans := [([1, 0], [0, 1]), ([0, 1], [1, 0])], mark := [1, 0],
    initial_mark := [1, 0], places := 2,
    g := [([1, 0], [([0, 1], 0)]), ([0, 1], [([1, 0], 1)])],
    bounded := some true, m_null := none, m_last := none,
    ids := [((2 : Int), ([1, 0], [0, 1])), ((3 : Int), ([0, 1], [1, 0]))],
    marks := 2, edges := 2 }

/-- A one-place net at the cap: marking `[10000]`, one transition with
pre = `[0]`, post = `[1]` (dictionary id 1). -/
def cexNet1 : Petrinet := Petrinet.init.update_net [10000] [([0], [1])]

/-- A two-place net one step below the cap: marking `[10000, 1]`, one
transition moving a token from place 1 while producing on place 0. -/
def cexNet3 : Petrinet := Petrinet.init.update_net [10000, 1] [([0, 1], [1, 0])]

/-- The unbounded one-place net of Scenario A: marking `[1]`, transition
pre = `[1]`, post = `[2]`. -/
def cexNet4 : Petrinet := Petrinet.init.update_net [1] [([1], [2])]

/-! ## Theorems -/

/-! ## Helper lemmas about the primitive operations -/

theorem valid_mark_iff (m : Marking) :
    valid_mark m = true ↔ ∀ x ∈ m, 0 ≤ x ∧ x ≤ 10000 := by
  induction m with
  | nil => simp [valid_mark]
  | cons x xs ih =>
    simp only [valid_mark, List.any_cons, Bool.not_eq_true', Bool.or_eq_false_iff,
      decide_eq_false_iff_not, not_lt, List.mem_cons] at ih ⊢
    constructor
    · rintro ⟨⟨h1, h2⟩, h3⟩ y hy
      rcases hy with rfl | hy
      · exact ⟨h1, h2⟩
      · exact ih.mp h3 y hy
    · intro h
      refine ⟨⟨(h x (Or.inl rfl)).1, (h x (Or.inl rfl)).2⟩, ?_⟩
      exact ih.mpr fun y hy => h y (Or.inr hy)

theorem findDominated_dominates (mark : Marking) :
    ∀ path p, findDominated mark path = some p → a_greater_b mark p = true := by
  intro path
  induction path with
  | nil => intro p h; simp [findDominated] at h
  | cons q rest ih =>
    intro p h
    by_cases hq : a_greater_b mark q = true
    · simp [findDominated, hq] at h
      exact h ▸ hq
    · simp only [Bool.not_eq_true] at hq
      simp [findDominated, hq] at h
      exact ih p h

theorem lookupIds_mkIdsFrom_none :
    ∀ (l : List Trans) (k t : Int),
      lookupIds (mkIdsFrom k l) t = none ↔ ¬ (k ≤ t ∧ t < k + l.length) := by
  intro l
  induction l with
  | nil =>
    intro k t
    simp only [mkIdsFrom, lookupIds, List.length_nil, Nat.cast_zero, add_zero]
    constructor
    · intro _ h; omega
    · intro _; trivial
  | cons hd tl ih =>
    intro k t
    simp only [mkIdsFrom, lookupIds, List.length_cons]
    by_cases hk : k = t
    · subst hk
      simp only [if_pos rfl]
      constructor
      · intro h; cases h
      · intro h; exfalso; apply h; constructor
        · exact le_refl k
        · have : (0 : Int) < (tl.length : Int) + 1 := by positivity
          omega
    · simp only [if_neg hk, ih (k + 1) t]
      push_cast
      omega

theorem getD_set_self :
    ∀ (l : List Int) (i : Nat) (v : Int), i < l.length →
      (l.set i v).getD i 0 = v := by
  intro l
  induction l with
  | nil => intro i v h; simp at h
  | cons x xs ih =>
    intro i v h
    cases i with
    | zero => simp
    | succ j =>
      simp only [List.set_cons_succ, List.getD_cons_succ]
      exact ih j v (by simpa using h)

theorem getD_set_ne :
    ∀ (l : List Int) (i j : Nat) (v : Int), i ≠ j →
      (l.set i v).getD j 0 = l.getD j 0 := by
  intro l
  induction l with
  | nil => intro i j v _; simp
  | cons x xs ih =>
    intro i j v hij
    cases i with
    | zero =>
      cases j with
      | zero => exact absurd rfl hij
      | succ j' => simp
    | succ i' =>
      cases j with
      | zero => simp
      | succ j' =>
        simp only [List.set_cons_succ, List.getD_cons_succ]
        exact ih i' j' v (by omega)

theorem gKeys_gAddEdge (g : Graph) (mark tmp : Marking) (i : Nat) :
    gKeys (gAddEdge g mark tmp i) = gKeys g := by
  induction g with
  | nil => rfl
  | cons e rest ih =>
    simp only [gAddEdge, gKeys, List.map_cons] at ih ⊢
    by_cases he : e.1 = mark
    · simp [he, ih]
    · simp [he, ih]

theorem gAddEdge_of_not_mem (g : Graph) (mark tmp : Marking) (i : Nat)
    (h : mark ∉ gKeys g) : gAddEdge g mark tmp i = g := by
  induction g with
  | nil => rfl
  | cons e rest ih =>
    simp only [gKeys, List.map_cons, List.mem_cons, not_or] at h
    simp only [gAddEdge, List.map_cons]
    rw [if_neg (fun he => h.1 he.symm)]
    have := ih (by simpa [gKeys] using h.2)
    simp only [gAddEdge] at this
    rw [this]

theorem totalEdges_gAddEdge (g : Graph) (mark tmp : Marking) (i : Nat)
    (hmem : mark ∈ gKeys g) (hnd : (gKeys g).Nodup) :
    totalEdges (gAddEdge g mark tmp i) = totalEdges g + 1 := by
  induction g with
  | nil => simp [gKeys] at hmem
  | cons e rest ih =>
    simp only [gKeys, List.map_cons, List.mem_cons] at hmem
    simp only [gKeys, List.map_cons, List.nodup_cons] at hnd
    by_cases he : e.1 = mark
    · have hrest : mark ∉ gKeys rest := by
        rw [← he]; exact fun hc => hnd.1 (by simpa [gKeys] using hc)
      simp only [gAddEdge, List.map_cons, if_pos he, totalEdges, List.map_cons,
        List.sum_cons]
      have : gAddEdge rest mark tmp i = rest := gAddEdge_of_not_mem rest mark tmp i hrest
      simp only [gAddEdge] at this
      rw [this]
      simp [List.length_append]
      omega
    · have hmem' : mark ∈ gKeys rest := by
        rcases hmem with h1 | h2
        · exact absurd h1.symm he
        · simpa [gKeys] using h2
      have := ih hmem' hnd.2
      simp only [gAddEdge, List.map_cons, if_neg he, totalEdges, List.map_cons,
        List.sum_cons] at this ⊢
      omega

theorem StExtends.refl (s : DfsSt) : StExtends s s :=
  ⟨fun _ h => h, fun _ h => h⟩

theorem StExtends.trans {s1 s2 s3 : DfsSt} (h1 : StExtends s1 s2)
    (h2 : StExtends s2 s3) : StExtends s1 s3 :=
  ⟨fun _ h => h2.1 (h1.1 h), fun _ h => h2.2 (h1.2 h)⟩

theorem gKeys_append_nilEntry (g : Graph) (mark : Marking) :
    gKeys (g ++ [(mark, [])]) = gKeys g ++ [mark] := by
  simp [gKeys]

theorem dfsLoop_mono (d : DfsSt → Marking → Option (DfsSt × Bool))
    (hd : ∀ s m s' b, d s m = some (s', b) → StExtends s s') (mark : Marking) :
    ∀ rest i s s' b, dfsLoop d mark i rest s = some (s', b) → StExtends s s' := by
  intro rest
  induction rest with
  | nil =>
    intro i s s' b h
    simp only [dfsLoop, Option.some.injEq, Prod.mk.injEq] at h
    exact h.1 ▸ StExtends.refl s
  | cons t ts ih =>
    intro i s s' b h
    simp only [dfsLoop] at h
    by_cases hv : valid_mark (List.zipWith (fun p1 p2 => p1 - p2) mark t.1) = true
    · rw [if_pos hv] at h
      rcases h2 : d { s with
          g := gAddEdge s.g mark
            (List.zipWith (fun p1 p2 => p1 + p2)
              (List.zipWith (fun p1 p2 => p1 - p2) mark t.1) t.2) i,
          edges := s.edges + 1 }
          (List.zipWith (fun p1 p2 => p1 + p2)
            (List.zipWith (fun p1 p2 => p1 - p2) mark t.1) t.2) with _ | ⟨s2, b2⟩
      · rw [h2] at h; cases h
      · rw [h2] at h
        have hstep : StExtends s s2 := by
          have := hd _ _ _ _ h2
          refine ⟨this.1, ?_⟩
          have hk : gKeys (gAddEdge s.g mark
              (List.zipWith (fun p1 p2 => p1 + p2)
                (List.zipWith (fun p1 p2 => p1 - p2) mark t.1) t.2) i) = gKeys s.g :=
            gKeys_gAddEdge _ _ _ _
          intro x hx
          exact this.2 (by rw [hk]; exact hx)
        cases b2 with
        | false =>
          simp only [Option.some.injEq, Prod.mk.injEq] at h
          exact h.1 ▸ hstep
        | true => exact hstep.trans (ih (i + 1) s2 s' b h)
    · rw [if_neg hv] at h
      exact ih (i + 1) s s' b h

theorem dfs_mono (trans : List Trans) :
    ∀ fuel s mark s' b, dfs trans fuel s mark = some (s', b) → StExtends s s' := by
  intro fuel
  induction fuel with
  | zero => intro s mark s' b h; simp [dfs] at h
  | succ fuel ih =>
    intro s mark s' b h
    simp only [dfs] at h
    by_cases hvis : mark ∈ s.visit
    · rw [if_pos hvis] at h
      simp only [Option.some.injEq, Prod.mk.injEq] at h
      exact h.1 ▸ StExtends.refl s
    · rw [if_neg hvis] at h
      rcases hdom : findDominated mark s.path with _ | prev
      · rw [hdom] at h
        have hbase : StExtends s
            { s with visit := mark :: s.visit,
                     path := s.path ++ [mark],
                     g := s.g ++ [(mark, [])],
                     marks := s.marks + 1 } := by
          refine ⟨fun x hx => List.mem_cons_of_mem _ hx, ?_⟩
          intro x hx
          rw [gKeys_append_nilEntry]
          exact List.mem_append_left _ hx
        rcases hloop : dfsLoop (dfs trans fuel) mark 0 trans
            { s with visit := mark :: s.visit,
                     path := s.path ++ [mark],
                     g := s.g ++ [(mark, [])],
                     marks := s.marks + 1 } with _ | ⟨s3, b3⟩
        · rw [hloop] at h; cases h
        · rw [hloop] at h
          have hl : StExtends _ s3 := dfsLoop_mono (dfs trans fuel) ih mark trans 0 _ s3 b3 hloop
          cases b3 with
          | false =>
            simp only [Option.some.injEq, Prod.mk.injEq] at h
            exact h.1 ▸ hbase.trans hl
          | true =>
            simp only [Option.some.injEq, Prod.mk.injEq] at h
            refine h.1 ▸ (hbase.trans hl).trans ?_
            exact ⟨fun x hx => hx, fun x hx => hx⟩
      · rw [hdom] at h
        simp only [Option.some.injEq, Prod.mk.injEq] at h
        refine h.1 ▸ ⟨fun x hx => List.mem_cons_of_mem _ hx, fun x hx => hx⟩

/-! ## Fuel agreement: more fuel never changes a successful result -/

theorem dfsLoop_agree (d1 d2 : DfsSt → Marking → Option (DfsSt × Bool))
    (h12 : ∀ s m r, d1 s m = some r → d2 s m = some r) (mark : Marking) :
    ∀ rest i s r, dfsLoop d1 mark i rest s = some r →
      dfsLoop d2 mark i rest s = some r := by
  intro rest
  induction rest with
  | nil => intro i s r h; simpa [dfsLoop] using h
  | cons t ts ih =>
    intro i s r h
    simp only [dfsLoop] at h ⊢
    by_cases hv : valid_mark (List.zipWith (fun p1 p2 => p1 - p2) mark t.1) = true
    · rw [if_pos hv] at h ⊢
      rcases h2 : d1 { s with
          g := gAddEdge s.g mark
            (List.zipWith (fun p1 p2 => p1 + p2)
              (List.zipWith (fun p1 p2 => p1 - p2) mark t.1) t.2) i,
          edges := s.edges + 1 }
          (List.zipWith (fun p1 p2 => p1 + p2)
            (List.zipWith (fun p1 p2 => p1 - p2) mark t.1) t.2) with _ | ⟨s2, b2⟩
      · rw [h2] at h; cases h
      · rw [h2] at h
        rw [h12 _ _ _ h2]
        cases b2 with
        | false => exact h
        | true => exact ih (i + 1) s2 r h
    · rw [if_neg hv] at h ⊢
      exact ih (i + 1) s r h

theorem dfs_agree (trans : List Trans) :
    ∀ fuel fuel', fuel ≤ fuel' → ∀ s mark r,
      dfs trans fuel s mark = some r → dfs trans fuel' s mark = some r := by
  intro fuel
  induction fuel with
  | zero => intro fuel' _ s mark r h; simp [dfs] at h
  | succ fuel ih =>
    intro fuel' hle s mark r h
    cases fuel' with
    | zero => omega
    | succ f' =>
      have hff : fuel ≤ f' := by omega
      simp only [dfs] at h ⊢
      by_cases hvis : mark ∈ s.visit
      · rw [if_pos hvis] at h ⊢; exact h
      · rw [if_neg hvis] at h ⊢
        rcases hdom : findDominated mark s.path with _ | prev
        · rw [hdom] at h
          rcases hloop : dfsLoop (dfs trans fuel) mark 0 trans
              { s with visit := mark :: s.visit,
                       path := s.path ++ [mark],
                       g := s.g ++ [(mark, [])],
                       marks := s.marks + 1 } with _ | ⟨s3, b3⟩
          · rw [hloop] at h; cases h
          · rw [hloop] at h
            have : dfsLoop (dfs trans f') mark 0 trans
                { s with visit := mark :: s.visit,
                         path := s.path ++ [mark],
                         g := s.g ++ [(mark, [])],
                         marks := s.marks + 1 } = some (s3, b3) :=
              dfsLoop_agree (dfs trans fuel) (dfs trans f')
                (fun s m r => ih f' hff s m r) mark trans 0 _ (s3, b3) hloop
            rw [this]
            exact h
        · rw [hdom] at h; exact h

theorem dfsLoop_outcome (d : DfsSt → Marking → Option (DfsSt × Bool))
    (hd : ∀ s m s' b, d s m = some (s', b) → OutcomeOk s s' b) (mark : Marking) :
    ∀ rest i s s' b, dfsLoop d mark i rest s = some (s', b) → OutcomeOk s s' b := by
  intro rest
  induction rest with
  | nil =>
    intro i s s' b h
    simp only [dfsLoop, Option.some.injEq, Prod.mk.injEq] at h
    obtain ⟨rfl, rfl⟩ := h
    exact ⟨fun hb => Bool.noConfusion hb, fun _ => ⟨rfl, rfl⟩⟩
  | cons t ts ih =>
    intro i s s' b h
    simp only [dfsLoop] at h
    by_cases hv : valid_mark (List.zipWith (fun p1 p2 => p1 - p2) mark t.1) = true
    · rw [if_pos hv] at h
      rcases h2 : d { s with
          g := gAddEdge s.g mark
            (List.zipWith (fun p1 p2 => p1 + p2)
              (List.zipWith (fun p1 p2 => p1 - p2) mark t.1) t.2) i,
          edges := s.edges + 1 }
          (List.zipWith (fun p1 p2 => p1 + p2)
            (List.zipWith (fun p1 p2 => p1 - p2) mark t.1) t.2) with _ | ⟨s2, b2⟩
      · rw [h2] at h; cases h
      · rw [h2] at h
        have hchild := hd _ _ _ _ h2
        cases b2 with
        | false =>
          simp only [Option.some.injEq, Prod.mk.injEq] at h
          obtain ⟨rfl, rfl⟩ := h
          exact ⟨fun _ => hchild.1 rfl, fun hb => Bool.noConfusion hb⟩
        | true =>
          have hrest := ih (i + 1) s2 s' b h
          refine ⟨hrest.1, fun hb => ?_⟩
          have h1 := hrest.2 hb
          have h2' := hchild.2 rfl
          exact ⟨h1.1.trans h2'.1, h1.2.trans h2'.2⟩
    · rw [if_neg hv] at h
      exact ih (i + 1) s s' b h

theorem dfs_outcome (trans : List Trans) :
    ∀ fuel s mark s' b, dfs trans fuel s mark = some (s', b) → OutcomeOk s s' b := by
  intro fuel
  induction fuel with
  | zero => intro s mark s' b h; simp [dfs] at h
  | succ fuel ih =>
    intro s mark s' b h
    simp only [dfs] at h
    by_cases hvis : mark ∈ s.visit
    · rw [if_pos hvis] at h
      simp only [Option.some.injEq, Prod.mk.injEq] at h
      obtain ⟨rfl, rfl⟩ := h
      exact ⟨fun hb => Bool.noConfusion hb, fun _ => ⟨rfl, rfl⟩⟩
    · rw [if_neg hvis] at h
      rcases hdom : findDominated mark s.path with _ | prev
      · rw [hdom] at h
        rcases hloop : dfsLoop (dfs trans fuel) mark 0 trans
            { s with visit := mark :: s.visit,
                     path := s.path ++ [mark],
                     g := s.g ++ [(mark, [])],
                     marks := s.marks + 1 } with _ | ⟨s3, b3⟩
        · rw [hloop] at h; cases h
        · rw [hloop] at h
          have hl := dfsLoop_outcome (dfs trans fuel) ih mark trans 0 _ s3 b3 hloop
          cases b3 with
          | false =>
            simp only [Option.some.injEq, Prod.mk.injEq] at h
            obtain ⟨rfl, rfl⟩ := h
            exact ⟨fun _ => hl.1 rfl, fun hb => Bool.noConfusion hb⟩
          | true =>
            simp only [Option.some.injEq, Prod.mk.injEq] at h
            obtain ⟨rfl, rfl⟩ := h
            refine ⟨fun hb => Bool.noConfusion hb, fun _ => ?_⟩
            exact ⟨(hl.2 rfl).1, (hl.2 rfl).2⟩
      · rw [hdom] at h
        simp only [Option.some.injEq, Prod.mk.injEq] at h
        obtain ⟨rfl, rfl⟩ := h
        refine ⟨fun _ => ⟨prev, mark, rfl, rfl, ?_⟩, fun hb => Bool.noConfusion hb⟩
        exact findDominated_dominates mark s.path prev hdom

theorem totalEdges_append_nilEntry (g : Graph) (mark : Marking) :
    totalEdges (g ++ [(mark, [])]) = totalEdges g := by
  simp [totalEdges]

theorem length_gAddEdge (g : Graph) (mark tmp : Marking) (i : Nat) :
    (gAddEdge g mark tmp i).length = g.length := by
  simp [gAddEdge]

theorem dfsLoop_inv (root : Marking) (trans : List Trans)
    (d : DfsSt → Marking → Option (DfsSt × Bool))
    (hmono : ∀ s m s' b, d s m = some (s', b) → StExtends s s')
    (hd : ∀ s m s' b, GoodKey root trans m → InvG root trans s →
      d s m = some (s', b) → InvG root trans s')
    (mark : Marking) :
    ∀ rest i s s' b, (∀ t ∈ rest, t ∈ trans) → mark ∈ gKeys s.g →
      InvG root trans s → dfsLoop d mark i rest s = some (s', b) →
      InvG root trans s' := by
  intro rest
  induction rest with
  | nil =>
    intro i s s' b _ _ hinv h
    simp only [dfsLoop, Option.some.injEq, Prod.mk.injEq] at h
    exact h.1 ▸ hinv
  | cons t ts ih =>
    intro i s s' b hrest hmark hinv h
    have hrest' : ∀ t' ∈ ts, t' ∈ trans :=
      fun t' ht' => hrest t' (List.mem_cons_of_mem _ ht')
    simp only [dfsLoop] at h
    by_cases hv : valid_mark (List.zipWith (fun p1 p2 => p1 - p2) mark t.1) = true
    · rw [if_pos hv] at h
      rcases h2 : d { s with
          g := gAddEdge s.g mark
            (List.zipWith (fun p1 p2 => p1 + p2)
              (List.zipWith (fun p1 p2 => p1 - p2) mark t.1) t.2) i,
          edges := s.edges + 1 }
          (List.zipWith (fun p1 p2 => p1 + p2)
            (List.zipWith (fun p1 p2 => p1 - p2) mark t.1) t.2) with _ | ⟨s2, b2⟩
      · rw [h2] at h; cases h
      · rw [h2] at h
        have hgood : GoodKey root trans
            (List.zipWith (fun p1 p2 => p1 + p2)
              (List.zipWith (fun p1 p2 => p1 - p2) mark t.1) t.2) :=
          Or.inr ⟨t, hrest t (List.mem_cons_self t ts), _, hv, rfl⟩
        have hinv1 : InvG root trans { s with
            g := gAddEdge s.g mark
              (List.zipWith (fun p1 p2 => p1 + p2)
                (List.zipWith (fun p1 p2 => p1 - p2) mark t.1) t.2) i,
            edges := s.edges + 1 } := by
          obtain ⟨h1, h2', h3, h4, h5, h6⟩ := hinv
          refine ⟨h1, ?_, ?_, ?_, ?_, ?_⟩
          · rw [gKeys_gAddEdge]; exact h2'
          · rw [gKeys_gAddEdge]; exact h3
          · rw [length_gAddEdge]; exact h4
          · rw [totalEdges_gAddEdge s.g mark _ i hmark h2']
            show s.edges + 1 = totalEdges s.g + 1
            omega
          · rw [gKeys_gAddEdge]; exact h6
        have hinv2 : InvG root trans s2 := hd _ _ _ _ hgood hinv1 h2
        cases b2 with
        | false =>
          simp only [Option.some.injEq, Prod.mk.injEq] at h
          exact h.1 ▸ hinv2
        | true =>
          have hmark2 : mark ∈ gKeys s2.g := by
            have := (hmono _ _ _ _ h2).2
            apply this
            rw [gKeys_gAddEdge]
            exact hmark
          exact ih (i + 1) s2 s' b hrest' hmark2 hinv2 h
    · rw [if_neg hv] at h
      exact ih (i + 1) s s' b hrest' hmark hinv h

theorem dfs_inv (root : Marking) (trans : List Trans) :
    ∀ fuel s mark s' b, GoodKey root trans mark → InvG root trans s →
      dfs trans fuel s mark = some (s', b) → InvG root trans s' := by
  intro fuel
  induction fuel with
  | zero => intro s mark s' b _ _ h; simp [dfs] at h
  | succ fuel ih =>
    intro s mark s' b hgood hinv h
    simp only [dfs] at h
    by_cases hvis : mark ∈ s.visit
    · rw [if_pos hvis] at h
      simp only [Option.some.injEq, Prod.mk.injEq] at h
      exact h.1 ▸ hinv
    · rw [if_neg hvis] at h
      rcases hdom : findDominated mark s.path with _ | prev
      · rw [hdom] at h
        have hinv2 : InvG root trans
            { s with visit := mark :: s.visit,
                     path := s.path ++ [mark],
                     g := s.g ++ [(mark, [])],
                     marks := s.marks + 1 } := by
          obtain ⟨h1, h2', h3, h4, h5, h6⟩ := hinv
          have hknotin : mark ∉ gKeys s.g := fun hc => hvis (h3 mark hc)
          refine ⟨List.Nodup.cons hvis h1, ?_, ?_, ?_, ?_, ?_⟩
          · rw [gKeys_append_nilEntry]
            rw [List.nodup_append]
            exact ⟨h2', List.nodup_singleton mark,
              fun a ha hb => hknotin (by simpa using (List.mem_singleton.mp hb) ▸ ha)⟩
          · intro k hk
            rw [gKeys_append_nilEntry] at hk
            rcases List.mem_append.mp hk with hk | hk
            · exact List.mem_cons_of_mem _ (h3 k hk)
            · rw [List.mem_singleton.mp hk]; exact List.mem_cons_self _ _
          · simpa using h4
          · rw [totalEdges_append_nilEntry]; exact h5
          · intro k hk
            rw [gKeys_append_nilEntry] at hk
            rcases List.mem_append.mp hk with hk | hk
            · exact h6 k hk
            · rw [List.mem_singleton.mp hk]; exact hgood
        rcases hloop : dfsLoop (dfs trans fuel) mark 0 trans
            { s with visit := mark :: s.visit,
                     path := s.path ++ [mark],
                     g := s.g ++ [(mark, [])],
                     marks := s.marks + 1 } with _ | ⟨s3, b3⟩
        · rw [hloop] at h; cases h
        · rw [hloop] at h
          have hmarkkey : mark ∈ gKeys
              ({ s with visit := mark :: s.visit,
                        path := s.path ++ [mark],
                        g := s.g ++ [(mark, [])],
                        marks := s.marks + 1 } : DfsSt).g := by
            show mark ∈ gKeys (s.g ++ [(mark, [])])
            rw [gKeys_append_nilEntry]
            exact List.mem_append_right _ (List.mem_singleton_self mark)
          have hinv3 : InvG root trans s3 :=
            dfsLoop_inv root trans (dfs trans fuel) (dfs_mono trans fuel) ih mark
              trans 0 _ s3 b3 (fun _ ht => ht) hmarkkey hinv2 hloop
          cases b3 with
          | false =>
            simp only [Option.some.injEq, Prod.mk.injEq] at h
            exact h.1 ▸ hinv3
          | true =>
            simp only [Option.some.injEq, Prod.mk.injEq] at h
            obtain ⟨rfl, rfl⟩ := h
            exact hinv3
      · rw [hdom] at h
        simp only [Option.some.injEq, Prod.mk.injEq] at h
        obtain ⟨rfl, rfl⟩ := h
        obtain ⟨h1, h2', h3, h4, h5, h6⟩ := hinv
        exact ⟨List.Nodup.cons hvis h1, h2',
          fun k hk => List.mem_cons_of_mem _ (h3 k hk), h4, h5, h6⟩

theorem mem_intRange (lo hi x : Int) : x ∈ intRange lo hi ↔ lo ≤ x ∧ x ≤ hi := by
  simp only [intRange, List.mem_map, List.mem_range]
  constructor
  · rintro ⟨k, hk, rfl⟩
    omega
  · rintro ⟨h1, h2⟩
    refine ⟨(x - lo).toNat, ?_, ?_⟩
    · omega
    · omega

theorem length_intRange (lo hi : Int) :
    (intRange lo hi).length = (hi + 1 - lo).toNat := by
  rw [intRange, List.length_map, List.length_range]

theorem mem_vecs (lo hi : Int) :
    ∀ n m, m ∈ vecs lo hi n ↔ m.length = n ∧ ∀ x ∈ m, lo ≤ x ∧ x ≤ hi := by
  intro n
  induction n with
  | zero =>
    intro m
    simp only [vecs, List.mem_singleton]
    constructor
    · rintro rfl; simp
    · intro ⟨h1, _⟩; exact List.length_eq_zero.mp h1
  | succ n ih =>
    intro m
    simp only [vecs, List.mem_flatMap, List.mem_map]
    constructor
    · rintro ⟨x, hx, v, hv, rfl⟩
      obtain ⟨hlen, hall⟩ := ih v |>.mp hv
      refine ⟨by simp [hlen], ?_⟩
      intro y hy
      rcases List.mem_cons.mp hy with rfl | hy
      · exact (mem_intRange lo hi y).mp hx
      · exact hall y hy
    · intro ⟨hlen, hall⟩
      cases m with
      | nil => simp at hlen
      | cons x v =>
        refine ⟨x, (mem_intRange lo hi x).mpr (hall x (List.mem_cons_self _ _)), v, ?_, rfl⟩
        refine (ih v).mpr ⟨by simpa using hlen, fun y hy => hall y (List.mem_cons_of_mem _ hy)⟩

theorem length_flatMap_cons (vs : List Marking) :
    ∀ l : List Int,
      (l.flatMap fun x => vs.map fun v => x :: v).length = l.length * vs.length := by
  intro l
  induction l with
  | nil => simp
  | cons x xs ih =>
    rw [List.flatMap_cons]
    simp only [List.length_append, List.length_map, ih, List.length_cons]
    ring

theorem length_vecs (lo hi : Int) :
    ∀ n, (vecs lo hi n).length = (intRange lo hi).length ^ n := by
  intro n
  induction n with
  | zero => simp [vecs]
  | succ n ih =>
    show ((intRange lo hi).flatMap fun x => (vecs lo hi n).map fun v => x :: v).length = _
    rw [length_flatMap_cons, ih, pow_succ]
    ring

theorem foldr_max_init_le (init : Int) :
    ∀ l : List Int, init ≤ l.foldr max init := by
  intro l
  induction l with
  | nil => exact le_refl _
  | cons x xs ih => exact le_trans ih (le_max_right x _)

theorem mem_le_foldr_max (init : Int) :
    ∀ (l : List Int) (y : Int), y ∈ l → y ≤ l.foldr max init := by
  intro l
  induction l with
  | nil => intro y h; cases h
  | cons x xs ih =>
    intro y h
    rcases List.mem_cons.mp h with rfl | h
    · exact le_max_left y _
    · exact le_trans (ih y h) (le_max_right x _)

theorem foldr_min_le_init (init : Int) :
    ∀ l : List Int, l.foldr min init ≤ init := by
  intro l
  induction l with
  | nil => exact le_refl _
  | cons x xs ih => exact le_trans (min_le_right x _) ih

theorem foldr_min_le_mem (init : Int) :
    ∀ (l : List Int) (y : Int), y ∈ l → l.foldr min init ≤ y := by
  intro l
  induction l with
  | nil => intro y h; cases h
  | cons x xs ih =>
    intro y h
    rcases List.mem_cons.mp h with rfl | h
    · exact min_le_left y _
    · exact le_trans (min_le_right x _) (ih y h)

theorem le_postMax (trans : List Trans) :
    ∀ t ∈ trans, ∀ y ∈ t.2, y ≤ postMax trans := by
  induction trans with
  | nil => intro t h; cases h
  | cons hd tl ih =>
    intro t ht y hy
    rcases List.mem_cons.mp ht with rfl | ht
    · exact mem_le_foldr_max _ _ y hy
    · exact le_trans (ih t ht y hy) (foldr_max_init_le _ _)

theorem postMin_le (trans : List Trans) :
    ∀ t ∈ trans, ∀ y ∈ t.2, postMin trans ≤ y := by
  induction trans with
  | nil => intro t h; cases h
  | cons hd tl ih =>
    intro t ht y hy
    rcases List.mem_cons.mp ht with rfl | ht
    · exact foldr_min_le_mem _ _ y hy
    · exact le_trans (foldr_min_le_init _ _) (ih t ht y hy)

theorem postMax_nonneg (trans : List Trans) : 0 ≤ postMax trans := by
  induction trans with
  | nil => exact le_refl 0
  | cons hd tl ih => exact le_trans ih (foldr_max_init_le _ _)

theorem postMin_nonpos (trans : List Trans) : postMin trans ≤ 0 := by
  induction trans with
  | nil => exact le_refl 0
  | cons hd tl ih => exact le_trans (foldr_min_le_init _ _) ih

theorem mem_zipWith_add (c p : List Int) (z : Int)
    (hz : z ∈ List.zipWith (fun p1 p2 => p1 + p2) c p) :
    ∃ a ∈ c, ∃ b ∈ p, z = a + b := by
  induction c generalizing p with
  | nil => simp at hz
  | cons x xs ih =>
    cases p with
    | nil => simp at hz
    | cons y ys =>
      simp only [List.zipWith_cons_cons, List.mem_cons] at hz
      rcases hz with rfl | hz
      · exact ⟨x, List.mem_cons_self _ _, y, List.mem_cons_self _ _, rfl⟩
      · obtain ⟨a, ha, b, hb, rfl⟩ := ih ys hz
        exact ⟨a, List.mem_cons_of_mem _ ha, b, List.mem_cons_of_mem _ hb, rfl⟩

theorem root_mem_searchSpace (trans : List Trans) (root : Marking) :
    root ∈ searchSpace trans root := by
  simp [searchSpace]

theorem length_of_mem_searchSpace (trans : List Trans) (root : Marking)
    (m : Marking) (hm : m ∈ searchSpace trans root) : m.length = root.length := by
  simp only [searchSpace, List.mem_toFinset, List.mem_cons] at hm
  rcases hm with rfl | hm
  · rfl
  · exact ((mem_vecs _ _ _ m).mp hm).1

/-- Any successor marking `candidate + post` built from a valid candidate
lies in the search box. -/
theorem child_mem_searchSpace (trans : List Trans) (root : Marking)
    (hwf : ∀ t ∈ trans, t.1.length = root.length ∧ t.2.length = root.length)
    (t : Trans) (ht : t ∈ trans) (mark : Marking)
    (hlen : mark.length = root.length)
    (hv : valid_mark (List.zipWith (fun p1 p2 => p1 - p2) mark t.1) = true) :
    (List.zipWith (fun p1 p2 => p1 + p2)
      (List.zipWith (fun p1 p2 => p1 - p2) mark t.1) t.2) ∈ searchSpace trans root := by
  simp only [searchSpace, List.mem_toFinset, List.mem_cons]
  right
  rw [mem_vecs]
  constructor
  · simp only [List.length_zipWith, hlen, (hwf t ht).1, (hwf t ht).2]
    omega
  · intro z hz
    obtain ⟨a, ha, b, hb, rfl⟩ := mem_zipWith_add _ _ z hz
    have hav := (valid_mark_iff _).mp hv a ha
    have hb1 := postMin_le trans t ht b hb
    have hb2 := le_postMax trans t ht b hb
    omega

theorem card_filter_lt_of_insert (S : Finset Marking) (visit : List Marking)
    (mark : Marking) (hmem : mark ∈ S) (hnot : mark ∉ visit) :
    (S.filter fun v => v ∉ mark :: visit).card < (S.filter fun v => v ∉ visit).card := by
  apply Finset.card_lt_card
  constructor
  · intro x hx
    simp only [Finset.mem_filter, List.mem_cons, not_or] at hx ⊢
    exact ⟨hx.1, hx.2.2⟩
  · intro hsub
    have : mark ∈ S.filter fun v => v ∉ visit := by
      simp only [Finset.mem_filter]; exact ⟨hmem, hnot⟩
    have h2 := hsub this
    simp only [Finset.mem_filter] at h2
    exact h2.2 (List.mem_cons_self _ _)

theorem card_filter_le_of_subset (S : Finset Marking) (v1 v2 : List Marking)
    (hsub : v1 ⊆ v2) :
    (S.filter fun v => v ∉ v2).card ≤ (S.filter fun v => v ∉ v1).card := by
  apply Finset.card_le_card
  intro x hx
  simp only [Finset.mem_filter] at hx ⊢
  exact ⟨hx.1, fun hc => hx.2 (hsub hc)⟩

theorem dfsLoop_sufficient (trans : List Trans) (root : Marking)
    (hwf : ∀ t ∈ trans, t.1.length = root.length ∧ t.2.length = root.length)
    (d : DfsSt → Marking → Option (DfsSt × Bool)) (F : Nat)
    (hmono : ∀ s m s' b, d s m = some (s', b) → StExtends s s')
    (hd : ∀ s m, m ∈ searchSpace trans root →
      ((searchSpace trans root).filter fun v => v ∉ s.visit).card < F →
      ∃ r, d s m = some r)
    (mark : Marking) (hlen : mark.length = root.length) :
    ∀ rest i s, (∀ t ∈ rest, t ∈ trans) →
      ((searchSpace trans root).filter fun v => v ∉ s.visit).card < F →
      ∃ r, dfsLoop d mark i rest s = some r := by
  intro rest
  induction rest with
  | nil => intro i s _ _; exact ⟨(s, true), by simp [dfsLoop]⟩
  | cons t ts ih =>
    intro i s hrest hcard
    have hrest' : ∀ t' ∈ ts, t' ∈ trans :=
      fun t' ht' => hrest t' (List.mem_cons_of_mem _ ht')
    simp only [dfsLoop]
    by_cases hv : valid_mark (List.zipWith (fun p1 p2 => p1 - p2) mark t.1) = true
    · rw [if_pos hv]
      have htmp : (List.zipWith (fun p1 p2 => p1 + p2)
          (List.zipWith (fun p1 p2 => p1 - p2) mark t.1) t.2) ∈ searchSpace trans root :=
        child_mem_searchSpace trans root hwf t (hrest t (List.mem_cons_self t ts))
          mark hlen hv
      obtain ⟨⟨s2, b2⟩, h2⟩ := hd { s with
          g := gAddEdge s.g mark
            (List.zipWith (fun p1 p2 => p1 + p2)
              (List.zipWith (fun p1 p2 => p1 - p2) mark t.1) t.2) i,
          edges := s.edges + 1 }
          (List.zipWith (fun p1 p2 => p1 + p2)
            (List.zipWith (fun p1 p2 => p1 - p2) mark t.1) t.2) htmp hcard
      rw [h2]
      cases b2 with
      | false => exact ⟨(s2, false), rfl⟩
      | true =>
        have hcard2 : ((searchSpace trans root).filter fun v => v ∉ s2.visit).card < F :=
          lt_of_le_of_lt
            (card_filter_le_of_subset _ _ _ (hmono _ _ _ _ h2).1) hcard
        exact ih (i + 1) s2 hrest' hcard2
    · rw [if_neg hv]
      exact ih (i + 1) s hrest' hcard

theorem dfs_sufficient (trans : List Trans) (root : Marking)
    (hwf : ∀ t ∈ trans, t.1.length = root.length ∧ t.2.length = root.length) :
    ∀ fuel s mark, mark ∈ searchSpace trans root →
      ((searchSpace trans root).filter fun v => v ∉ s.visit).card < fuel →
      ∃ r, dfs trans fuel s mark = some r := by
  intro fuel
  induction fuel with
  | zero => intro s mark _ hcard; omega
  | succ fuel ih =>
    intro s mark hmem hcard
    by_cases hvis : mark ∈ s.visit
    · exact ⟨(s, true), by simp only [dfs, if_pos hvis]⟩
    · rcases hdom : findDominated mark s.path with _ | prev
      · have hcard2 : ((searchSpace trans root).filter
            fun v => v ∉ mark :: s.visit).card < fuel := by
          have := card_filter_lt_of_insert (searchSpace trans root) s.visit mark hmem hvis
          omega
        obtain ⟨⟨s3, b3⟩, hloop⟩ := dfsLoop_sufficient trans root hwf
          (dfs trans fuel) fuel (dfs_mono trans fuel)
          (fun s' m' hm' hc' => ih s' m' hm' hc') mark
          (length_of_mem_searchSpace trans root mark hmem) trans 0
          { s with visit := mark :: s.visit,
                   path := s.path ++ [mark],
                   g := s.g ++ [(mark, [])],
                   marks := s.marks + 1 }
          (fun _ ht => ht) hcard2
        cases b3 with
        | false =>
          refine ⟨(s3, false), ?_⟩
          simp only [dfs, if_neg hvis, hdom, hloop]
        | true =>
          refine ⟨({ s3 with path := s3.path.dropLast }, true), ?_⟩
          simp only [dfs, if_neg hvis, hdom, hloop]
      · refine ⟨({ s with visit := mark :: s.visit, m_null := some prev, m_last := some mark }, false), ?_⟩
        simp only [dfs, if_neg hvis, hdom]

/-- The fuel chosen by `analysis` dominates the size of the search box. -/
theorem card_searchSpace_lt_fuelBound (pn : Petrinet) :
    (searchSpace pn.trans pn.initial_mark).card < fuelBound pn := by
  have h1 : (searchSpace pn.trans pn.initial_mark).card ≤
      (pn.initial_mark :: vecs (postMin pn.trans) (10000 + postMax pn.trans)
        pn.initial_mark.length).length :=
    List.toFinset_card_le _
  have h2 : (pn.initial_mark :: vecs (postMin pn.trans) (10000 + postMax pn.trans)
      pn.initial_mark.length).length =
      (intRange (postMin pn.trans) (10000 + postMax pn.trans)).length
        ^ pn.initial_mark.length + 1 := by
    simp [length_vecs]
  have h3 : (intRange (postMin pn.trans) (10000 + postMax pn.trans)).length =
      ((10000 + postMax pn.trans) - postMin pn.trans + 1).toNat := by
    rw [length_intRange]
    congr 1
    ring
  rw [h2, h3] at h1
  unfold fuelBound
  omega

theorem analysis_eq_some (pn : Petrinet)
    (hwf : ∀ t ∈ pn.trans, t.1.length = pn.initial_mark.length ∧
      t.2.length = pn.initial_mark.length) :
    ∃ s b, dfs pn.trans (fuelBound pn)
        { visit := [], path := [], g := [], marks := 0, edges := 0,
          m_null := none, m_last := none } pn.initial_mark = some (s, b) ∧
      pn.analysis = some { pn with
        mark := pn.initial_mark, g := s.g, bounded := some b,
        m_null := s.m_null, m_last := s.m_last,
        marks := s.marks, edges := s.edges } := by
  have hcard : ((searchSpace pn.trans pn.initial_mark).filter
      fun v => v ∉ ([] : List Marking)).card < fuelBound pn := by
    have hle : ((searchSpace pn.trans pn.initial_mark).filter
        fun v => v ∉ ([] : List Marking)).card ≤
        (searchSpace pn.trans pn.initial_mark).card :=
      Finset.card_filter_le _ _
    have := card_searchSpace_lt_fuelBound pn
    omega
  obtain ⟨⟨s, b⟩, hdfs⟩ := dfs_sufficient pn.trans pn.initial_mark hwf
    (fuelBound pn)
    { visit := [], path := [], g := [], marks := 0, edges := 0,
      m_null := none, m_last := none } pn.initial_mark
    (root_mem_searchSpace pn.trans pn.initial_mark) hcard
  refine ⟨s, b, hdfs, ?_⟩
  unfold Petrinet.analysis
  rw [hdfs]

theorem scenarioB_dfs :
    dfs scenarioB.trans 4
      { visit := [], path := [], g := [], marks := 0, edges := 0,
        m_null := none, m_last := none } scenarioB.initial_mark =
    some ({ visit := [[0, 1], [1, 0]], path := [],
            g := [([1, 0], [([0, 1], 0)]), ([0, 1], [([1, 0], 1)])],
            marks := 2, edges := 2, m_null := none, m_last := none }, true) := by
  decide

theorem fuelBound_scenarioB_ge : 4 ≤ fuelBound scenarioB := by decide

theorem scenarioB_analysis : scenarioB.analysis = some scenarioBResult := by
  have h := dfs_agree scenarioB.trans 4 (fuelBound scenarioB)
    fuelBound_scenarioB_ge _ _ _ scenarioB_dfs
  unfold Petrinet.analysis
  rw [h]
  rfl

/-! ## The claims -/

/-- C7: for the two-place token-passing net (p0=1, p1=0; t0: pre=[1,0],
post=[0,1]; t1: pre=[0,1], post=[1,0]), `analysis` reports bounded with
nodeCount = 2 and edgeCount = 2. -/
theorem scenario_b_bounded :
    (scenarioB.analysis.map fun p => (p.bounded, p.marks, p.edges)) =
      some (some true, 2, 2) := by
  rw [scenarioB_analysis]
  rfl

/-- C2: for every well-formed net (all pre/post vectors of the initial
marking's length), `analysis` terminates, and exactly one of two outcomes
occurs: bounded (and no domination pair is recorded), or unbounded with a
recorded pair `m_null`, `m_last` where `m_last` dominates `m_null`
(`_a_greater_b m_last m_null`); there is no third outcome. -/
theorem analysis_terminates_two_outcomes (pn : Petrinet)
    (hwf : ∀ t ∈ pn.trans, t.1.length = pn.initial_mark.length ∧
      t.2.length = pn.initial_mark.length) :
    ∃ pn', pn.analysis = some pn' ∧
      ((pn'.bounded = some true ∧ pn'.m_null = none ∧ pn'.m_last = none) ∨
       (pn'.bounded = some false ∧ ∃ a c, pn'.m_null = some a ∧
         pn'.m_last = some c ∧ a_greater_b c a = true)) := by
  obtain ⟨s, b, hdfs, hana⟩ := analysis_eq_some pn hwf
  refine ⟨_, hana, ?_⟩
  have hout := dfs_outcome pn.trans (fuelBound pn) _ _ _ _ hdfs
  cases b with
  | true =>
    left
    have h2 := hout.2 rfl
    exact ⟨rfl, h2.1, h2.2⟩
  | false =>
    right
    obtain ⟨a, c, h1, h2, h3⟩ := hout.1 rfl
    exact ⟨rfl, a, c, h1, h2, h3⟩

/-- Witness for C2 at the concrete Scenario B net. -/
theorem analysis_terminates_two_outcomes_witness :
    (∀ t ∈ scenarioB.trans, t.1.length = scenarioB.initial_mark.length ∧
      t.2.length = scenarioB.initial_mark.length) ∧
    ∃ pn', scenarioB.analysis = some pn' ∧
      ((pn'.bounded = some true ∧ pn'.m_null = none ∧ pn'.m_last = none) ∨
       (pn'.bounded = some false ∧ ∃ a c, pn'.m_null = some a ∧
         pn'.m_last = some c ∧ a_greater_b c a = true)) :=
  ⟨by decide, analysis_terminates_two_outcomes scenarioB (by decide)⟩

/-- C8: `analysis` is deterministic — the result depends only on the loaded
marking and transition list (transitions are tried in fixed index order):
loading the same net into any two objects yields identical objects, so two
runs of `analysis` yield identical graphs, counters, verdicts and witness
pairs. -/
theorem analysis_deterministic (pn1 pn2 : Petrinet) (m : Marking)
    (t : List Trans) :
    pn1.update_net m t = pn2.update_net m t ∧
    (pn1.update_net m t).analysis = (pn2.update_net m t).analysis :=
  ⟨rfl, rfl⟩

/-- C9: `analysis` always starts from the initial-marking snapshot, not the
live marking: changing the live marking via `set_mark` or `fire_trans` does
not affect the analysis result, and after `analysis` returns, the live
marking equals the initial marking. -/
theorem analysis_starts_from_initial_mark :
    (∀ (pn : Petrinet) (v : Marking), (pn.set_mark v).analysis = pn.analysis) ∧
    (∀ (pn : Petrinet) (t : Int),
      ((pn.fire_trans t).1).analysis = pn.analysis) ∧
    (∀ (pn pn' : Petrinet), pn.analysis = some pn' →
      pn'.mark = pn.initial_mark) := by
  refine ⟨fun pn v => rfl, fun pn t => ?_, fun pn pn' h => ?_⟩
  · unfold Petrinet.fire_trans
    rcases lookupIds pn.ids t with _ | ⟨pre, post⟩
    · rfl
    · dsimp only
      by_cases hv : valid_mark (List.zipWith (fun p1 p2 => p1 - p2) pn.mark pre) = true
      · rw [if_pos hv]; exact rfl
      · rw [if_neg hv]
  · unfold Petrinet.analysis at h
    rcases hdfs : dfs pn.trans (fuelBound pn)
        { visit := [], path := [], g := [], marks := 0, edges := 0,
          m_null := none, m_last := none } pn.initial_mark with _ | ⟨s, b⟩
    · rw [hdfs] at h; cases h
    · rw [hdfs] at h
      simp only [Option.some.injEq] at h
      rw [← h]

/-- Witness for C9 (the part with a hypothesis) at the empty net. -/
theorem analysis_starts_from_initial_mark_witness :
    ((Petrinet.init.update_net [] []).set_mark [3]).analysis =
      (Petrinet.init.update_net [] []).analysis ∧
    (((Petrinet.init.update_net [] []).fire_trans 5).1).analysis =
      (Petrinet.init.update_net [] []).analysis ∧
    ({ trans := [], mark := [], initial_mark := [], places := 0,
       g := [([], [])], bounded := some true, m_null := none, m_last := none,
       ids := [], marks := 1, edges := 0 } : Petrinet).mark =
      (Petrinet.init.update_net [] []).initial_mark :=
  ⟨analysis_starts_from_initial_mark.1 (Petrinet.init.update_net [] []) [3],
   analysis_starts_from_initial_mark.2.1 (Petrinet.init.update_net [] []) 5,
   analysis_starts_from_initial_mark.2.2 (Petrinet.init.update_net [] [])
     { trans := [], mark := [], initial_mark := [], places := 0,
       g := [([], [])], bounded := some true, m_null := none, m_last := none,
       ids := [], marks := 1, edges := 0 } (by decide)⟩

/-- C10: `fire_trans` and `set_mark` never modify the initial-marking
snapshot or the net topology (place count, transition list, id table);
`change_mark` never modifies the topology either. -/
theorem fire_set_mark_frame :
    (∀ (pn : Petrinet) (t : Int),
      (pn.fire_trans t).1.initial_mark = pn.initial_mark ∧
      (pn.fire_trans t).1.places = pn.places ∧
      (pn.fire_trans t).1.trans = pn.trans ∧
      (pn.fire_trans t).1.ids = pn.ids) ∧
    (∀ (pn : Petrinet) (v : Marking),
      (pn.set_mark v).initial_mark = pn.initial_mark ∧
      (pn.set_mark v).places = pn.places ∧
      (pn.set_mark v).trans = pn.trans ∧
      (pn.set_mark v).ids = pn.ids) ∧
    (∀ (pn : Petrinet) (a p : Int),
      (pn.change_mark a p).1.places = pn.places ∧
      (pn.change_mark a p).1.trans = pn.trans ∧
      (pn.change_mark a p).1.ids = pn.ids) := by
  refine ⟨fun pn t => ?_, fun pn v => ⟨rfl, rfl, rfl, rfl⟩, fun pn a p => ?_⟩
  · unfold Petrinet.fire_trans
    rcases lookupIds pn.ids t with _ | ⟨pre, post⟩
    · exact ⟨rfl, rfl, rfl, rfl⟩
    · dsimp only
      by_cases hv : valid_mark (List.zipWith (fun p1 p2 => p1 - p2) pn.mark pre) = true
      · rw [if_pos hv]; exact ⟨rfl, rfl, rfl, rfl⟩
      · rw [if_neg hv]; exact ⟨rfl, rfl, rfl, rfl⟩
  · unfold Petrinet.change_mark
    by_cases hc : 0 ≤ p ∧ p < (pn.places : Int) ∧ 0 ≤ pn.mark.getD p.toNat 0 + a
    · rw [if_pos hc]; exact ⟨rfl, rfl, rfl⟩
    · rw [if_neg hc]; exact ⟨rfl, rfl, rfl⟩

/-- C1 counterexample: firing succeeds (and pushes the marking to `[10001]`,
above the cap) even though the claim's condition
`(m - pre + post)[i] <= CAP` is violated — the code checks the cap on the
candidate `m - pre`, not on `m - pre + post`. -/
theorem fire_cap_check_cex :
    (cexNet1.fire_trans 1).2 = true ∧
    (cexNet1.fire_trans 1).1.mark = [10001] ∧
    ¬ (∀ x ∈ List.zipWith (fun p1 p2 => p1 + p2)
        (List.zipWith (fun p1 p2 => p1 - p2) cexNet1.mark [0]) [1], x ≤ 10000) := by
  decide

/-- C1 amended: `fire_trans` succeeds iff every component of the candidate
`m - pre` lies in `[0, CAP]` (the cap is checked before `post` is added),
and on success the live marking becomes exactly `m - pre + post`
component-wise (which may exceed CAP). -/
theorem fire_trans_success_iff_candidate_valid (pn : Petrinet) (t_id : Int)
    (pre post : List Int) (h : lookupIds pn.ids t_id = some (pre, post)) :
    ((pn.fire_trans t_id).2 = true ↔
      ∀ x ∈ List.zipWith (fun p1 p2 => p1 - p2) pn.mark pre,
        0 ≤ x ∧ x ≤ 10000) ∧
    ((pn.fire_trans t_id).2 = true →
      (pn.fire_trans t_id).1.mark = List.zipWith (fun p1 p2 => p1 + p2)
        (List.zipWith (fun p1 p2 => p1 - p2) pn.mark pre) post) := by
  unfold Petrinet.fire_trans
  rw [h]
  dsimp only
  by_cases hv : valid_mark (List.zipWith (fun p1 p2 => p1 - p2) pn.mark pre) = true
  · rw [if_pos hv]
    exact ⟨⟨fun _ => (valid_mark_iff _).mp hv, fun _ => rfl⟩, fun _ => rfl⟩
  · rw [if_neg hv]
    refine ⟨⟨fun hc => Bool.noConfusion hc, fun hall => ?_⟩,
      fun hc => Bool.noConfusion hc⟩
    exact absurd ((valid_mark_iff _).mpr hall) hv

/-- Witness for the amended C1 at the concrete net `cexNet1`. -/
theorem fire_trans_success_iff_candidate_valid_witness :
    lookupIds cexNet1.ids 1 = some ([0], [1]) ∧
    (((cexNet1.fire_trans 1).2 = true ↔
       ∀ x ∈ List.zipWith (fun p1 p2 => p1 - p2) cexNet1.mark [0],
         0 ≤ x ∧ x ≤ 10000) ∧
     ((cexNet1.fire_trans 1).2 = true →
       (cexNet1.fire_trans 1).1.mark = List.zipWith (fun p1 p2 => p1 + p2)
         (List.zipWith (fun p1 p2 => p1 - p2) cexNet1.mark [0]) [1])) :=
  ⟨rfl, fire_trans_success_iff_candidate_valid cexNet1 1 [0] [1] rfl⟩

/-- C5: for any integer id that is not a dictionary key (not in
`[n, n+m)`), or any resolved transition whose candidate marking is invalid,
`fire_trans` returns `false` and the whole object — in particular the live
marking — is completely unchanged (firing is atomic). -/
theorem fire_trans_failure_no_mutation (pn : Petrinet) (t_id : Int)
    (hids : pn.ids = mkIdsFrom (pn.places : Int) pn.trans)
    (h : ¬ ((pn.places : Int) ≤ t_id ∧
        t_id < (pn.places : Int) + pn.trans.length) ∨
      ∃ pre post, lookupIds pn.ids t_id = some (pre, post) ∧
        valid_mark (List.zipWith (fun p1 p2 => p1 - p2) pn.mark pre) = false) :
    pn.fire_trans t_id = (pn, false) := by
  rcases h with hrange | ⟨pre, post, hl, hv⟩
  · have hnone : lookupIds pn.ids t_id = none := by
      rw [hids]
      exact (lookupIds_mkIdsFrom_none pn.trans (pn.places : Int) t_id).mpr hrange
    unfold Petrinet.fire_trans
    rw [hnone]
  · unfold Petrinet.fire_trans
    rw [hl]
    dsimp only
    rw [if_neg (by rw [hv]; exact Bool.false_ne_true)]

/-- Witness for C5: firing the place id 0 (not a transition id) of
`cexNet1` fails without mutation. -/
theorem fire_trans_failure_no_mutation_witness :
    cexNet1.ids = mkIdsFrom (cexNet1.places : Int) cexNet1.trans ∧
    cexNet1.fire_trans 0 = (cexNet1, false) :=
  ⟨rfl, fire_trans_failure_no_mutation cexNet1 0 rfl (Or.inl (by decide))⟩

/-- C6: `change_mark(delta, p)` succeeds iff `0 ≤ p < n` and
`mark[p] + delta ≥ 0`; on success only component `p` of the live marking
changes, by exactly `delta`, and the initial-marking snapshot is resynced
to the new live marking (topology untouched); on failure nothing at all is
mutated. -/
theorem change_mark_spec (pn : Petrinet) (amount place : Int)
    (hlen : pn.mark.length = pn.places) :
    ((pn.change_mark amount place).2 = true ↔
      0 ≤ place ∧ place < (pn.places : Int) ∧
      0 ≤ pn.mark.getD place.toNat 0 + amount) ∧
    ((pn.change_mark amount place).2 = true →
      (pn.change_mark amount place).1.mark.getD place.toNat 0 =
        pn.mark.getD place.toNat 0 + amount ∧
      (∀ j : Nat, j ≠ place.toNat →
        (pn.change_mark amount place).1.mark.getD j 0 = pn.mark.getD j 0) ∧
      (pn.change_mark amount place).1.initial_mark =
        (pn.change_mark amount place).1.mark) ∧
    ((pn.change_mark amount place).2 = false →
      (pn.change_mark amount place).1 = pn) := by
  unfold Petrinet.change_mark
  by_cases hc : 0 ≤ place ∧ place < (pn.places : Int) ∧
      0 ≤ pn.mark.getD place.toNat 0 + amount
  · rw [if_pos hc]
    have hlt : place.toNat < pn.mark.length := by
      rw [hlen]; omega
    refine ⟨⟨fun _ => hc, fun _ => rfl⟩, fun _ => ?_, fun hc2 => by cases hc2⟩
    exact ⟨getD_set_self pn.mark place.toNat _ hlt,
      fun j hj => getD_set_ne pn.mark place.toNat j _ (fun he => hj he.symm),
      rfl⟩
  · rw [if_neg hc]
    exact ⟨⟨fun hc2 => Bool.noConfusion hc2, fun h2 => absurd h2 hc⟩,
      fun hc2 => Bool.noConfusion hc2, fun _ => rfl⟩

/-- Witness for C6: removing one token from the single place of `cexNet1`
succeeds. -/
theorem change_mark_spec_witness :
    cexNet1.mark.length = cexNet1.places ∧
    ((cexNet1.change_mark (-1) 0).2 = true ↔
      0 ≤ (0 : Int) ∧ (0 : Int) < (cexNet1.places : Int) ∧
      0 ≤ cexNet1.mark.getD (0 : Int).toNat 0 + (-1)) :=
  ⟨rfl, (change_mark_spec cexNet1 (-1) 0 rfl).1⟩

/-- The empty DFS state satisfies the structural invariant. -/
theorem InvG_init (root : Marking) (trans : List Trans) :
    InvG root trans
      { visit := [], path := [], g := [], marks := 0,
        edges := 0, m_null := none, m_last := none } := by
  refine ⟨List.nodup_nil, ?_, ?_, rfl, rfl, ?_⟩ <;> simp [gKeys]

/-- C3 counterexample: the marking `[10001, 0]` has a component above
CAP = 10000, yet it receives a reachability-graph entry, is counted in
`nodeCount` (marks = 2) and has its outgoing transitions explored — the
validity check prunes on the candidate `m - pre`, not on the stored
marking `candidate + post`. -/
theorem graph_marking_above_cap_cex :
    (cexNet3.analysis.map fun p => (p.bounded, p.marks, gKeys p.g)) =
      some (some true, 2, [[10000, 1], [10001, 0]]) ∧
    valid_mark [10001, 0] = false := by
  constructor
  · have hdfs : dfs cexNet3.trans 3
        { visit := [], path := [], g := [], marks := 0, edges := 0,
          m_null := none, m_last := none } cexNet3.initial_mark =
        some ({ visit := [[10001, 0], [10000, 1]], path := [],
                g := [([10000, 1], [([10001, 0], 0)]), ([10001, 0], [])],
                marks := 2, edges := 1, m_null := none, m_last := none },
          true) := by decide
    have h := dfs_agree cexNet3.trans 3 (fuelBound cexNet3) (by decide)
      _ _ _ hdfs
    unfold Petrinet.analysis
    rw [h]
    rfl
  · decide

/-- C3 amended: the `[0, CAP]` pruning applies to the candidate
`m - pre(t)`: a branch is only expanded when the candidate is in the box,
so every marking entered in the graph (and counted/explored) is either the
initial marking or of the form `candidate + post(t)` for a candidate in
`[0, CAP]^n` — the stored marking itself may exceed CAP by up to the
largest `post` component. -/
theorem analysis_graph_keys_candidate_form (pn pn' : Petrinet)
    (h : pn.analysis = some pn') :
    ∀ k ∈ gKeys pn'.g, GoodKey pn.initial_mark pn.trans k := by
  unfold Petrinet.analysis at h
  rcases hdfs : dfs pn.trans (fuelBound pn)
      { visit := [], path := [], g := [], marks := 0, edges := 0,
        m_null := none, m_last := none } pn.initial_mark with _ | ⟨s, b⟩
  · rw [hdfs] at h; cases h
  · rw [hdfs] at h
    simp only [Option.some.injEq] at h
    subst h
    have hinv := dfs_inv pn.initial_mark pn.trans (fuelBound pn) _ _ _ _
      (Or.inl rfl) (InvG_init pn.initial_mark pn.trans) hdfs
    intro k hk
    exact hinv.2.2.2.2.2 k hk

/-- Witness for the amended C3: the non-root graph key `[0, 1]` of the
Scenario B analysis has the `candidate + post` shape. -/
theorem analysis_graph_keys_candidate_form_witness :
    GoodKey scenarioB.initial_mark scenarioB.trans [0, 1] :=
  analysis_graph_keys_candidate_form scenarioB scenarioBResult
    scenarioB_analysis [0, 1] (by decide)

/-- C4 counterexample: on the unbounded Scenario A net, the DFS run behind
`analysis` adds two distinct markings (`[1]` and the dominating `[2]`) to
the visited set, but the node counter is 1 — the dominating marking is
added to `visit` before the domination test and is never counted. -/
theorem node_count_vs_visited_cex :
    dfs cexNet4.trans (fuelBound cexNet4)
        { visit := [], path := [], g := [], marks := 0, edges := 0,
          m_null := none, m_last := none } cexNet4.initial_mark =
      some ({ visit := [[2], [1]], path := [[1]], g := [([1], [([2], 0)])],
              marks := 1, edges := 1, m_null := some [1],
              m_last := some [2] }, false) ∧
    (cexNet4.analysis.map fun p => p.marks) = some 1 ∧
    ([[2], [1]] : List Marking).length = 2 ∧ (1 : Nat) ≠ 2 := by
  have hdfs : dfs cexNet4.trans 2
      { visit := [], path := [], g := [], marks := 0, edges := 0,
        m_null := none, m_last := none } cexNet4.initial_mark =
      some ({ visit := [[2], [1]], path := [[1]], g := [([1], [([2], 0)])],
              marks := 1, edges := 1, m_null := some [1],
              m_last := some [2] }, false) := by decide
  have h := dfs_agree cexNet4.trans 2 (fuelBound cexNet4) (by decide)
    _ _ _ hdfs
  refine ⟨h, ?_, rfl, by decide⟩
  unfold Petrinet.analysis
  rw [h]
  rfl

/-- C4 amended: after every `analysis` run, the node counter equals the
number of distinct markings that received a reachability-graph entry
(the graph keys are distinct; on an unbounded run the final dominating
marking is added to the visited set but gets no entry and is not counted),
and the edge counter equals the number of expanded (marking, transition)
pairs, i.e. the edges recorded in the graph. -/
theorem node_edge_counts_match_graph (pn pn' : Petrinet)
    (h : pn.analysis = some pn') :
    pn'.marks = pn'.g.length ∧ pn'.edges = totalEdges pn'.g ∧
    (gKeys pn'.g).Nodup := by
  unfold Petrinet.analysis at h
  rcases hdfs : dfs pn.trans (fuelBound pn)
      { visit := [], path := [], g := [], marks := 0, edges := 0,
        m_null := none, m_last := none } pn.initial_mark with _ | ⟨s, b⟩
  · rw [hdfs] at h; cases h
  · rw [hdfs] at h
    simp only [Option.some.injEq] at h
    subst h
    have hinv := dfs_inv pn.initial_mark pn.trans (fuelBound pn) _ _ _ _
      (Or.inl rfl) (InvG_init pn.initial_mark pn.trans) hdfs
    exact ⟨hinv.2.2.2.1, hinv.2.2.2.2.1, hinv.2.1⟩

/-- Witness for the amended C4 at the Scenario B analysis result. -/
theorem node_edge_counts_match_graph_witness :
    scenarioBResult.marks = scenarioBResult.g.length ∧
    scenarioBResult.edges = totalEdges scenarioBResult.g ∧
    (gKeys scenarioBResult.g).Nodup :=
  node_edge_counts_match_graph scenarioB scenarioBResult scenarioB_analysis

end Petrinets
